import Mathlib

/-!
Verification of `fp` (find free ports, `src/fp.c`).

The program is embedded shallowly.  The OS is modelled by oracles giving
the outcome of each `socket()` / `bind()` / `getsockname()` call and the
port the kernel assigns to each port-0 bind.  The two acquisition
routines `find_free_ports` (fp.c lines 76-122) and
`find_free_ports_range` (fp.c lines 127-152) are transcribed as Lean
functions that return both the result (`Option (List Nat)`, `none` for
the C return value `-1`) and a trace of socket-resource events, so that
resource-discipline and temporal claims can be stated about the trace.
`main`'s option loop and validation (fp.c lines 157-231) are transcribed
over a list of already-lexed options.
-/

namespace FP

/-- `MAX_PORTS` from fp.c line 27. -/
def MAX_PORTS : Nat := 1024

/-- Observable socket-resource events emitted by the acquisition routines:
`sockOpen fd` when a `socket()` call succeeds and yields descriptor `fd`,
`sockRead fd` when `getsockname()` succeeds on `fd`, and `sockClose fd`
for `close(fd)`.  Descriptors are abstracted as the index of the
`socket()` call that produced them. -/
inductive Ev
  | sockOpen (fd : Nat)
  | sockRead (fd : Nat)
  | sockClose (fd : Nat)
  deriving DecidableEq, Repr

/-- The descriptors of the open events of a trace, in order. -/
def opensOf (t : List Ev) : List Nat :=
  t.filterMap fun e => match e with | .sockOpen fd => some fd | _ => none

/-- The descriptors of the close events of a trace, in order. -/
def closesOf (t : List Ev) : List Nat :=
  t.filterMap fun e => match e with | .sockClose fd => some fd | _ => none

/-- OS oracle for the unconstrained batch path `find_free_ports`:
for the `i`-th socket of the batch, whether `socket()` succeeds, whether
the port-0 `bind()` succeeds, whether `getsockname()` succeeds, and which
port the kernel assigned. -/
structure OS where
  socketOk : Nat → Bool
  bindOk : Nat → Bool
  gsOk : Nat → Bool
  assigned : Nat → Nat

/-- Result of the open-and-bind loop of `find_free_ports` (fp.c lines
82-98): either every socket was opened and bound, or the loop jumped to
`fail` with `nOpen` descriptors to close (C's variable `i` at the jump:
after a failed `socket()` it is the index of the failed call, after a
failed `bind()` it has been incremented to include the bound-failed
descriptor in the cleanup). -/
inductive P1Res
  | allBound
  | failAt (nOpen : Nat)
  deriving DecidableEq, Repr

/-- The open-and-bind loop of `find_free_ports`, fp.c lines 82-98,
starting at index `i` with `fuel` iterations left (`fuel = count - i`
at every call site, so the loop runs while `i < count`).  Returns the
open events of the remaining iterations and how the loop ended. -/
def bindLoop (os : OS) : Nat → Nat → List Ev × P1Res
  | 0, _ => ([], .allBound)
  | fuel + 1, i =>
    if os.socketOk i then
      if os.bindOk i then
        let r := bindLoop os fuel (i + 1)
        (.sockOpen i :: r.1, r.2)
      else
        ([.sockOpen i], .failAt (i + 1))
    else
      ([], .failAt i)

/-- The getsockname loop of `find_free_ports`, fp.c lines 101-109,
starting at index `i` with `fuel = count - i` iterations left.  Returns
the read events of the remaining iterations and the list
`ports[i..count-1]`, or `none` when some `getsockname()` fails (the
`fail_all` path). -/
def readLoop (os : OS) : Nat → Nat → List Ev × Option (List Nat)
  | 0, _ => ([], some [])
  | fuel + 1, i =>
    if os.gsOk i then
      let r := readLoop os fuel (i + 1)
      (.sockRead i :: r.1, r.2.map (os.assigned i :: ·))
    else
      ([], none)

/-- `close` events for descriptors `0, …, n-1`, the cleanup loops of
fp.c lines 112-113 and 119-120. -/
def closeAll (n : Nat) : List Ev := (List.range n).map .sockClose

/-- `find_free_ports`, fp.c lines 76-122: open and bind `count` sockets
to port 0, then read back every assigned port, then close everything.
Returns the event trace and the ports (`none` for the C return `-1`). -/
def find_free_ports (os : OS) (count : Nat) : List Ev × Option (List Nat) :=
  match bindLoop os count 0 with
  | (evs, .failAt n) => (evs ++ closeAll n, none)
  | (evs, .allBound) =>
    match readLoop os count 0 with
    | (revs, none) => (evs ++ revs ++ closeAll count, none)
    | (revs, some ports) => (evs ++ revs ++ closeAll count, some ports)

/-- OS oracle for the range-constrained path `find_free_ports_range`:
for the scan's `i`-th iteration, whether `socket()` succeeds and whether
the exact-port `bind()` succeeds. -/
structure ROS where
  socketOk : Nat → Bool
  bindOk : Nat → Bool

/-- The candidate port of iteration `i`, fp.c line 135:
`port = lo + ((start - lo + i) % range)`. -/
def candidate (lo start range i : Nat) : Nat :=
  lo + ((start - lo + i) % range)

/-- The scan loop of `find_free_ports_range`, fp.c lines 134-149, from
iteration `i` with ports `acc` already found and `fuel = range - i`
iterations left (so the loop runs while `i < range`, and additionally
stops when `found < count` fails).  Each iteration opens a socket
(aborting the whole search with `none` when `socket()` fails, fp.c
lines 138-139), try-binds the candidate port, records it on bind
success, and closes the socket.  On exit the result is `acc` when
`found == count` and `none` otherwise (fp.c line 151). -/
def rangeLoop (ros : ROS) (count lo range start : Nat) :
    Nat → Nat → List Nat → List Ev × Option (List Nat)
  | 0, _, acc => ([], if acc.length = count then some acc else none)
  | fuel + 1, i, acc =>
    if acc.length < count then
      if ros.socketOk i then
        let acc2 := if ros.bindOk i then acc ++ [candidate lo start range i] else acc
        let r := rangeLoop ros count lo range start fuel (i + 1) acc2
        (.sockOpen i :: .sockClose i :: r.1, r.2)
      else
        ([], none)
    else
      ([], if acc.length = count then some acc else none)

/-- `find_free_ports_range`, fp.c lines 127-152.  `r` models the value
of `rand()`; the start offset is `lo + r % range` (fp.c line 131); the
scan runs for up to `range` iterations from `i = 0`. -/
def find_free_ports_range (ros : ROS) (count lo hi r : Nat) : List Ev × Option (List Nat) :=
  let range := hi - lo + 1
  let start := lo + r % range
  rangeLoop ros count lo range start range 0 []

/-- The C `int` return value of `find_free_ports_range`: `0` on success,
`-1` both when `socket()` fails mid-scan (fp.c line 139) and when the
scan exhausts the range with `found < count` (fp.c line 151). -/
def find_free_ports_range_rc (ros : ROS) (count lo hi r : Nat) : Int :=
  match (find_free_ports_range ros count lo hi r).2 with
  | some _ => 0
  | none => -1

/-! ## The CLI layer: `main`'s option loop and validation, fp.c 157-231 -/

/-- `SOCK_STREAM` / `SOCK_DGRAM`. -/
inductive SockKind
  | stream
  | dgram
  deriving DecidableEq, Repr

/-- `AF_INET` / `AF_INET6`. -/
inductive Family
  | inet
  | inet6
  deriving DecidableEq, Repr

/-- One already-lexed command-line option, as `getopt` and the numeric
parsers deliver it to `main`'s switch (fp.c lines 168-204):
`n v` is `-n NUM` with `v = atoi(NUM)`; `r lo hi` is `-r MIN:MAX` whose
two integers `sscanf` parsed; `rUnparsable` is a `-r` argument `sscanf`
could not parse as two integers; `unknown` is any option `getopt`
rejects (the `default` case). -/
inductive Opt
  | n (v : Int)
  | r (lo hi : Int)
  | rUnparsable
  | u
  | six
  | v
  | h
  | unknown
  deriving DecidableEq, Repr

/-- `main`'s mutable locals, fp.c lines 159-163. -/
structure MState where
  count : Int
  socktype : SockKind
  family : Family
  range_lo : Int
  range_hi : Int
  use_range : Bool
  deriving DecidableEq, Repr

/-- Initial values of `main`'s locals, fp.c lines 159-163. -/
def initState : MState :=
  { count := 1, socktype := .stream, family := .inet,
    range_lo := 0, range_hi := 0, use_range := false }

/-- How `main` left its option loop: `exit c` is an early `return c`
inside the switch, `run st` means the loop consumed all options and
execution continues with locals `st`. -/
inductive MainRes
  | exit (code : Nat)
  | run (st : MState)
  deriving DecidableEq, Repr

/-- `main`'s `getopt` loop, fp.c lines 168-204, over the lexed options. -/
def optLoop (st : MState) : List Opt → MainRes
  | [] => .run st
  | o :: rest =>
    match o with
    | .n v =>
      if v < 1 ∨ MAX_PORTS < v then .exit 1
      else optLoop { st with count := v } rest
    | .r lo hi =>
      if lo < 1 ∨ 65535 < hi ∨ hi < lo then .exit 1
      else optLoop { st with range_lo := lo, range_hi := hi, use_range := true } rest
    | .rUnparsable => .exit 1
    | .u => optLoop { st with socktype := .dgram } rest
    | .six => optLoop { st with family := .inet6 } rest
    | .v => .exit 0
    | .h => .exit 0
    | .unknown => .exit 1

/-- The option loop followed by the count-versus-range-size check of
fp.c lines 206-211.  A `run st` result is a configuration that reaches
the acquisition code. -/
def main_validate (opts : List Opt) : MainRes :=
  match optLoop initState opts with
  | .run st =>
    if st.use_range ∧ st.range_hi - st.range_lo + 1 < st.count then .exit 1
    else .run st
  | e => e

/-- The whole of `main`, fp.c lines 157-231: validate the options, run
the selected acquisition routine, and print the ports exactly when it
returned `0` (fp.c lines 222-228; on `rc < 0` nothing is printed and the
exit status is `1`).  Returns the socket-event trace, the printed ports
and the exit status.  (On success `main` prints `ports[0..count-1]`;
that array region equals the returned list, whose length is proved equal
to `count` below.) -/
def fp_main (os : OS) (ros : ROS) (r : Nat) (opts : List Opt) :
    List Ev × List Nat × Nat :=
  match main_validate opts with
  | .exit c => ([], [], c)
  | .run st =>
    if st.use_range then
      match find_free_ports_range ros st.count.toNat st.range_lo.toNat st.range_hi.toNat r with
      | (t, some ps) => (t, ps, 0)
      | (t, none) => (t, [], 1)
    else
      match find_free_ports os st.count.toNat with
      | (t, some ps) => (t, ps, 0)
      | (t, none) => (t, [], 1)

/-- Number of successful binds among scan iterations `0, …, m-1` of the
range path (`found` after `m` clean iterations). -/
def foundBy (ros : ROS) (m : Nat) : Nat :=
  ((List.range m).filter fun j => ros.bindOk j).length

/-- Number of successful binds among scan iterations `i, …, i+d-1`. -/
def foundBetween (ros : ROS) (i d : Nat) : Nat :=
  ((List.range' i d).filter fun j => ros.bindOk j).length

/-- `nestedOk cur t = true` when, starting from `cur` currently open
sockets, the trace `t` never has two sockets open at once: an open event
is admissible only when nothing is currently open. -/
def nestedOk : Nat → List Ev → Bool
  | _, [] => true
  | cur, .sockOpen _ :: t => decide (cur = 0) && nestedOk (cur + 1) t
  | cur, .sockClose _ :: t => nestedOk (cur - 1) t
  | cur, .sockRead _ :: t => nestedOk cur t

/-- An open/close pair per descriptor, the shape of the range-scan trace. -/
def pairEvs (l : List Nat) : List Ev :=
  l.flatMap fun j => [.sockOpen j, .sockClose j]

/-- The configuration bounds that `main`'s option loop enforces on its
locals before the acquisition code can run. -/
def validConfig (st : MState) : Prop :=
  1 ≤ st.count ∧ st.count ≤ 1024 ∧
    (st.use_range = true →
      1 ≤ st.range_lo ∧ st.range_lo ≤ st.range_hi ∧ st.range_hi ≤ 65535)

/-! ## Candidate-port arithmetic (fp.c line 135) -/

theorem candidate_injOn (lo start range : Nat) :
    ∀ i j, i < range → j < range →
      candidate lo start range i = candidate lo start range j → i = j := by
  intro i j hi hj h
  have h' : (start - lo + i) % range = (start - lo + j) % range :=
    Nat.add_left_cancel h
  have hm : i ≡ j [MOD range] := Nat.ModEq.add_left_cancel' (start - lo) h'
  have : i % range = j % range := hm
  rwa [Nat.mod_eq_of_lt hi, Nat.mod_eq_of_lt hj] at this

theorem candidate_mem (lo hi start : Nat) (h1 : lo ≤ hi) (i : Nat) :
    lo ≤ candidate lo start (hi - lo + 1) i ∧
      candidate lo start (hi - lo + 1) i ≤ hi := by
  unfold candidate
  have := Nat.mod_lt (start - lo + i) (show 0 < hi - lo + 1 by omega)
  omega

theorem candidate_surjOn (lo hi start : Nat) (h1 : lo ≤ hi) :
    ∀ p, lo ≤ p → p ≤ hi →
      ∃ i, i < hi - lo + 1 ∧ candidate lo start (hi - lo + 1) i = p := by
  intro p hp1 hp2
  have himg : (Finset.range (hi - lo + 1)).image (candidate lo start (hi - lo + 1)) =
      Finset.Icc lo hi := by
    apply Finset.eq_of_subset_of_card_le
    · intro x hx
      rcases Finset.mem_image.1 hx with ⟨i, _, rfl⟩
      have := candidate_mem lo hi start h1 i
      exact Finset.mem_Icc.2 this
    · have hc1 : ((Finset.range (hi - lo + 1)).image
          (candidate lo start (hi - lo + 1))).card = hi - lo + 1 := by
        rw [Finset.card_image_of_injOn, Finset.card_range]
        intro i hi' j hj' hij
        exact candidate_injOn lo start (hi - lo + 1) i j
          (Finset.mem_range.1 hi') (Finset.mem_range.1 hj') hij
      rw [hc1, Nat.card_Icc]
      omega
  have hp : p ∈ Finset.Icc lo hi := Finset.mem_Icc.2 ⟨hp1, hp2⟩
  rw [← himg] at hp
  rcases Finset.mem_image.1 hp with ⟨i, hi', hip⟩
  exact ⟨i, Finset.mem_range.1 hi', hip⟩

/-! ## Trace bookkeeping -/

theorem opensOf_append (s t : List Ev) : opensOf (s ++ t) = opensOf s ++ opensOf t := by
  simp [opensOf]

theorem closesOf_append (s t : List Ev) : closesOf (s ++ t) = closesOf s ++ closesOf t := by
  simp [closesOf]

theorem opensOf_map_sockOpen (l : List Nat) : opensOf (l.map Ev.sockOpen) = l := by
  induction l with
  | nil => rfl
  | cons a l ih => simpa [opensOf, List.filterMap_cons] using ih

theorem opensOf_map_sockRead (l : List Nat) : opensOf (l.map Ev.sockRead) = [] := by
  simp [opensOf, List.filterMap_cons]

theorem opensOf_map_sockClose (l : List Nat) : opensOf (l.map Ev.sockClose) = [] := by
  simp [opensOf, List.filterMap_cons]

theorem closesOf_map_sockOpen (l : List Nat) : closesOf (l.map Ev.sockOpen) = [] := by
  simp [closesOf, List.filterMap_cons]

theorem closesOf_map_sockRead (l : List Nat) : closesOf (l.map Ev.sockRead) = [] := by
  simp [closesOf, List.filterMap_cons]

theorem closesOf_map_sockClose (l : List Nat) : closesOf (l.map Ev.sockClose) = l := by
  induction l with
  | nil => rfl
  | cons a l ih => simpa [closesOf, List.filterMap_cons] using ih

theorem opensOf_pairEvs (l : List Nat) : opensOf (pairEvs l) = l := by
  induction l with
  | nil => rfl
  | cons a l ih => simpa [pairEvs, opensOf, List.filterMap_cons] using ih

theorem closesOf_pairEvs (l : List Nat) : closesOf (pairEvs l) = l := by
  induction l with
  | nil => rfl
  | cons a l ih => simpa [pairEvs, closesOf, List.filterMap_cons] using ih

theorem nestedOk_pairEvs (l : List Nat) : nestedOk 0 (pairEvs l) = true := by
  induction l with
  | nil => rfl
  | cons a l ih => simpa [pairEvs, nestedOk] using ih

/-! ## Structure of the batch loops -/

theorem bindLoop_spec (os : OS) : ∀ fuel i, ∃ k, k ≤ fuel ∧
    (bindLoop os fuel i).1 = (List.range' i k).map Ev.sockOpen ∧
    ((bindLoop os fuel i).2 = .allBound → k = fuel) ∧
    (∀ n, (bindLoop os fuel i).2 = .failAt n → n = i + k) := by
  intro fuel
  induction fuel with
  | zero =>
    intro i
    exact ⟨0, Nat.le_refl 0, rfl, fun _ => rfl, fun n h => by simp [bindLoop] at h⟩
  | succ fuel ih =>
    intro i
    by_cases hs : os.socketOk i
    · by_cases hb : os.bindOk i
      · rcases ih (i + 1) with ⟨k, hk, hevs, hall, hfail⟩
        refine ⟨k + 1, by omega, ?_, ?_, ?_⟩
        · simp [bindLoop, hs, hb, hevs, List.range'_succ]
        · intro h
          have := hall (by simpa [bindLoop, hs, hb] using h)
          omega
        · intro n h
          have := hfail n (by simpa [bindLoop, hs, hb] using h)
          omega
      · refine ⟨1, by omega, ?_, ?_, ?_⟩
        · simp [bindLoop, hs, hb, List.range'_succ]
        · intro h; simp [bindLoop, hs, hb] at h
        · intro n h
          simp [bindLoop, hs, hb] at h
          omega
    · refine ⟨0, by omega, ?_, ?_, ?_⟩
      · simp [bindLoop, hs]
      · intro h; simp [bindLoop, hs] at h
      · intro n h
        simp [bindLoop, hs] at h
        omega

theorem bindLoop_allBound (os : OS) : ∀ fuel i, (bindLoop os fuel i).2 = .allBound →
    ∀ j, i ≤ j → j < i + fuel → os.socketOk j = true ∧ os.bindOk j = true := by
  intro fuel
  induction fuel with
  | zero => intro i _ j h1 h2; omega
  | succ fuel ih =>
    intro i h j h1 h2
    by_cases hs : os.socketOk i
    · by_cases hb : os.bindOk i
      · have h' : (bindLoop os fuel (i + 1)).2 = .allBound := by
          simpa [bindLoop, hs, hb] using h
        rcases Nat.eq_or_lt_of_le h1 with rfl | hlt
        · exact ⟨hs, hb⟩
        · exact ih (i + 1) h' j hlt (by omega)
      · simp [bindLoop, hs, hb] at h
    · simp [bindLoop, hs] at h

theorem readLoop_evs (os : OS) : ∀ fuel i, ∃ k,
    (readLoop os fuel i).1 = (List.range' i k).map Ev.sockRead := by
  intro fuel
  induction fuel with
  | zero => intro i; exact ⟨0, rfl⟩
  | succ fuel ih =>
    intro i
    by_cases hg : os.gsOk i
    · rcases ih (i + 1) with ⟨k, hk⟩
      exact ⟨k + 1, by simp [readLoop, hg, hk, List.range'_succ]⟩
    · exact ⟨0, by simp [readLoop, hg]⟩

theorem readLoop_some (os : OS) : ∀ fuel i l, (readLoop os fuel i).2 = some l →
    (readLoop os fuel i).1 = (List.range' i fuel).map Ev.sockRead ∧
    l = (List.range' i fuel).map os.assigned ∧
    ∀ j, i ≤ j → j < i + fuel → os.gsOk j = true := by
  intro fuel
  induction fuel with
  | zero =>
    intro i l h
    have : l = [] := by simpa [readLoop] using h.symm
    exact ⟨rfl, by simp [this], fun j h1 h2 => by omega⟩
  | succ fuel ih =>
    intro i l h
    by_cases hg : os.gsOk i
    · rcases h2 : (readLoop os fuel (i + 1)).2 with _ | l'
      · simp [readLoop, hg, h2] at h
      · rcases ih (i + 1) l' h2 with ⟨hevs, hl', hoks⟩
        have hl : l = os.assigned i :: l' := by
          have := h
          simp [readLoop, hg, h2] at this
          exact this.symm
        refine ⟨?_, ?_, ?_⟩
        · simp [readLoop, hg, hevs, List.range'_succ]
        · simp [hl, hl', List.range'_succ]
        · intro j h1 hj
          rcases Nat.eq_or_lt_of_le h1 with rfl | hlt
          · exact hg
          · exact hoks j hlt (by omega)
    · simp [readLoop, hg] at h

/-- Full characterisation of a successful batch acquisition: the ports
are the assigned ports of sockets `0, …, count-1` in creation order, the
trace is all opens, then all reads, then all closes, and every
`socket()`, `bind()` and `getsockname()` call succeeded. -/
theorem find_free_ports_some (os : OS) (count : Nat) (ports : List Nat)
    (h : (find_free_ports os count).2 = some ports) :
    ports = (List.range count).map os.assigned ∧
    (find_free_ports os count).1 =
      (List.range count).map Ev.sockOpen ++ (List.range count).map Ev.sockRead ++
        closeAll count ∧
    ∀ j, j < count → os.socketOk j = true ∧ os.bindOk j = true ∧ os.gsOk j = true := by
  rcases hb : bindLoop os count 0 with ⟨evs, res⟩
  cases res with
  | failAt n => simp [find_free_ports, hb] at h
  | allBound =>
    rcases hr : readLoop os count 0 with ⟨revs, ro⟩
    cases ro with
    | none => simp [find_free_ports, hb, hr] at h
    | some l =>
      have hl : l = ports := by simpa [find_free_ports, hb, hr] using h
      subst hl
      rcases readLoop_some os count 0 l (by rw [hr]) with ⟨hrevs, hports, hgs⟩
      rcases bindLoop_spec os count 0 with ⟨k, _, hevs, hall, _⟩
      have hk : k = count := hall (by rw [hb])
      have hevs' : evs = (List.range' 0 count).map Ev.sockOpen := by
        rw [hb] at hevs
        simpa [hk] using hevs
      have hrevs' : revs = (List.range' 0 count).map Ev.sockRead := by
        rw [hr] at hrevs
        simpa using hrevs
      refine ⟨by simpa [List.range_eq_range'] using hports, ?_, ?_⟩
      · simp [find_free_ports, hb, hr, hevs', hrevs', List.range_eq_range']
      · intro j hj
        rcases bindLoop_allBound os count 0 (by rw [hb]) j (by omega) (by omega) with ⟨h1, h2⟩
        exact ⟨h1, h2, hgs j (by omega) (by omega)⟩

/-! ## Structure of the range scan loop -/

theorem rangeLoop_trace (ros : ROS) (count lo range start : Nat) :
    ∀ fuel i acc, ∃ l : List Nat,
      (rangeLoop ros count lo range start fuel i acc).1 = pairEvs l ∧
      l.length ≤ fuel := by
  intro fuel
  induction fuel with
  | zero => intro i acc; exact ⟨[], rfl, by simp⟩
  | succ fuel ih =>
    intro i acc
    by_cases h1 : acc.length < count
    · by_cases h2 : ros.socketOk i
      · rcases ih (i + 1)
          (if ros.bindOk i then acc ++ [candidate lo start range i] else acc) with
          ⟨l, hl, hlen⟩
        refine ⟨i :: l, ?_, by simpa using Nat.succ_le_succ hlen⟩
        simp [rangeLoop, h1, h2, pairEvs, hl]
      · exact ⟨[], by simp [rangeLoop, h1, h2, pairEvs], by simp⟩
    · exact ⟨[], by simp [rangeLoop, h1, pairEvs], by simp⟩

theorem rangeLoop_some_length (ros : ROS) (count lo range start : Nat) :
    ∀ fuel i acc ps,
      (rangeLoop ros count lo range start fuel i acc).2 = some ps →
      ps.length = count := by
  intro fuel
  induction fuel with
  | zero =>
    intro i acc ps h
    by_cases hc : acc.length = count
    · have hap : acc = ps := by simpa [rangeLoop, hc] using h
      exact hap ▸ hc
    · simp [rangeLoop, hc] at h
  | succ fuel ih =>
    intro i acc ps h
    by_cases h1 : acc.length < count
    · by_cases h2 : ros.socketOk i
      · exact ih (i + 1) _ ps (by simpa [rangeLoop, h1, h2] using h)
      · simp [rangeLoop, h1, h2] at h
    · by_cases hc : acc.length = count
      · have hap : acc = ps := by simpa [rangeLoop, h1, hc] using h
        exact hap ▸ hc
      · simp [rangeLoop, h1, hc] at h

theorem rangeLoop_some_sound (ros : ROS) (count lo range start : Nat)
    (hinj : ∀ i j, i < range → j < range →
      candidate lo start range i = candidate lo start range j → i = j) :
    ∀ fuel i acc,
      i + fuel ≤ range →
      (∀ p ∈ acc, ∃ j, j < i ∧ p = candidate lo start range j) →
      acc.Nodup →
      ∀ ps, (rangeLoop ros count lo range start fuel i acc).2 = some ps →
        ps.Nodup ∧ ∀ p ∈ ps, ∃ j, j < range ∧ p = candidate lo start range j := by
  intro fuel
  induction fuel with
  | zero =>
    intro i acc hle hacc hnd ps h
    by_cases hc : acc.length = count
    · have hap : acc = ps := by simpa [rangeLoop, hc] using h
      subst hap
      exact ⟨hnd, fun p hp => by
        rcases hacc p hp with ⟨j, hj, hpj⟩
        exact ⟨j, by omega, hpj⟩⟩
    · simp [rangeLoop, hc] at h
  | succ fuel ih =>
    intro i acc hle hacc hnd ps h
    by_cases h1 : acc.length < count
    · by_cases h2 : ros.socketOk i
      · have hi : i < range := by omega
        have h' : (rangeLoop ros count lo range start fuel (i + 1)
            (if ros.bindOk i then acc ++ [candidate lo start range i] else acc)).2 =
            some ps := by
          simpa [rangeLoop, h1, h2] using h
        by_cases hb : ros.bindOk i
        · rw [if_pos hb] at h'
          have hnotmem : candidate lo start range i ∉ acc := by
            intro hmem
            rcases hacc _ hmem with ⟨j, hj, hpj⟩
            have : j = i := hinj j i (by omega) hi hpj.symm
            omega
          refine ih (i + 1) (acc ++ [candidate lo start range i]) (by omega) ?_ ?_ ps h'
          · intro p hp
            rcases List.mem_append.1 hp with hp | hp
            · rcases hacc p hp with ⟨j, hj, hpj⟩
              exact ⟨j, by omega, hpj⟩
            · exact ⟨i, by omega, by simpa using hp⟩
          · simp [List.nodup_append, hnd, hnotmem]
        · rw [if_neg hb] at h'
          refine ih (i + 1) acc (by omega) ?_ hnd ps h'
          intro p hp
          rcases hacc p hp with ⟨j, hj, hpj⟩
          exact ⟨j, by omega, hpj⟩
      · simp [rangeLoop, h1, h2] at h
    · by_cases hc : acc.length = count
      · have hap : acc = ps := by simpa [rangeLoop, h1, hc] using h
        subst hap
        exact ⟨hnd, fun p hp => by
          rcases hacc p hp with ⟨j, hj, hpj⟩
          exact ⟨j, by omega, hpj⟩⟩
      · simp [rangeLoop, h1, hc] at h

theorem foundBetween_succ (ros : ROS) (i d : Nat) :
    foundBetween ros i (d + 1) =
      (if ros.bindOk i then 1 else 0) + foundBetween ros (i + 1) d := by
  by_cases hb : ros.bindOk i
  · simp [foundBetween, List.range'_succ, List.filter_cons, hb]
    omega
  · simp [foundBetween, List.range'_succ, List.filter_cons, hb]

theorem foundBy_eq_foundBetween (ros : ROS) (m : Nat) :
    foundBy ros m = foundBetween ros 0 m := by
  simp [foundBy, foundBetween, List.range_eq_range']

theorem rangeLoop_abort (ros : ROS) (count lo range start : Nat) :
    ∀ d fuel i acc, d < fuel →
      (∀ j, i ≤ j → j < i + d → ros.socketOk j = true) →
      ros.socketOk (i + d) = false →
      acc.length + foundBetween ros i d < count →
      (rangeLoop ros count lo range start fuel i acc).2 = none := by
  intro d
  induction d with
  | zero =>
    intro fuel i acc hd hpre hfail hcount
    match fuel, hd with
    | fuel + 1, _ =>
      have h1 : acc.length < count := by
        have : foundBetween ros i 0 = 0 := rfl
        omega
      have h2 : ros.socketOk i = false := by simpa using hfail
      simp [rangeLoop, h1, h2]
  | succ d ih =>
    intro fuel i acc hd hpre hfail hcount
    match fuel, hd with
    | fuel + 1, _ =>
      have hsi : ros.socketOk i = true := hpre i (by omega) (by omega)
      have h1 : acc.length < count := by
        have := foundBetween_succ ros i d
        omega
      have hrec : (rangeLoop ros count lo range start fuel (i + 1)
          (if ros.bindOk i then acc ++ [candidate lo start range i] else acc)).2 =
          none := by
        apply ih fuel (i + 1) _ (by omega)
        · intro j hj1 hj2
          exact hpre j (by omega) (by omega)
        · have : i + 1 + d = i + (d + 1) := by omega
          rw [this]
          exact hfail
        · have hfs := foundBetween_succ ros i d
          by_cases hb : ros.bindOk i <;> simp [hb] at hfs ⊢ <;> omega
      simp [rangeLoop, h1, hsi, hrec]

theorem rangeLoop_allOk (ros : ROS) (count lo range start : Nat)
    (hok : ∀ j, ros.socketOk j = true) :
    ∀ fuel i acc, acc.length ≤ count →
      ((rangeLoop ros count lo range start fuel i acc).2 ≠ none ↔
        count ≤ acc.length + foundBetween ros i fuel) := by
  intro fuel
  induction fuel with
  | zero =>
    intro i acc hle
    have h0 : foundBetween ros i 0 = 0 := rfl
    by_cases hc : acc.length = count
    · have hres : (rangeLoop ros count lo range start 0 i acc).2 = some acc := by
        simp [rangeLoop, hc]
      rw [hres, h0]
      simp only [ne_eq, Option.some_ne_none, not_false_eq_true, true_iff]
      omega
    · have hres : (rangeLoop ros count lo range start 0 i acc).2 = none := by
        simp [rangeLoop, hc]
      rw [hres, h0]
      simp only [ne_eq, not_true_eq_false, false_iff, not_le]
      omega
  | succ fuel ih =>
    intro i acc hle
    by_cases h1 : acc.length < count
    · have hfs := foundBetween_succ ros i fuel
      have hstep : (rangeLoop ros count lo range start (fuel + 1) i acc).2 =
          (rangeLoop ros count lo range start fuel (i + 1)
            (if ros.bindOk i then acc ++ [candidate lo start range i] else acc)).2 := by
        simp [rangeLoop, h1, hok i]
      rw [hstep]
      by_cases hb : ros.bindOk i
      · rw [if_pos hb]
        have hrec := ih (i + 1) (acc ++ [candidate lo start range i])
          (by simp only [List.length_append, List.length_singleton]; omega)
        rw [hrec]
        rw [if_pos hb] at hfs
        simp only [List.length_append, List.length_singleton]
        omega
      · rw [if_neg hb]
        have hrec := ih (i + 1) acc (by omega)
        rw [hrec]
        rw [if_neg hb] at hfs
        omega
    · have hc : acc.length = count := by omega
      have hres : (rangeLoop ros count lo range start (fuel + 1) i acc).2 = some acc := by
        simp [rangeLoop, h1, hc]
      rw [hres]
      simp only [ne_eq, Option.some_ne_none, not_false_eq_true, true_iff]
      omega

/-! ## Validation invariant of the option loop -/

theorem optLoop_run_valid : ∀ opts st st', validConfig st →
    optLoop st opts = .run st' → validConfig st' := by
  intro opts
  induction opts with
  | nil =>
    intro st st' hv h
    have : st = st' := by simpa [optLoop] using h
    exact this ▸ hv
  | cons o rest ih =>
    intro st st' hv h
    cases o with
    | n v =>
      by_cases hc : v < 1 ∨ (MAX_PORTS : Int) < v
      · simp [optLoop, hc] at h
      · refine ih _ st' ?_ (by simpa [optLoop, hc] using h)
        push_neg at hc
        rcases hv with ⟨_, _, hr⟩
        exact ⟨hc.1, by simpa [MAX_PORTS] using hc.2, hr⟩
    | r lo hi =>
      by_cases hc : lo < 1 ∨ (65535 : Int) < hi ∨ hi < lo
      · simp [optLoop, hc] at h
      · refine ih _ st' ?_ (by simpa [optLoop, hc] using h)
        push_neg at hc
        rcases hv with ⟨h1, h2, _⟩
        exact ⟨h1, h2, fun _ => ⟨hc.1, hc.2.2, hc.2.1⟩⟩
    | rUnparsable => simp [optLoop] at h
    | u =>
      refine ih _ st' ?_ (by simpa [optLoop] using h)
      rcases hv with ⟨h1, h2, hr⟩
      exact ⟨h1, h2, hr⟩
    | six =>
      refine ih _ st' ?_ (by simpa [optLoop] using h)
      rcases hv with ⟨h1, h2, hr⟩
      exact ⟨h1, h2, hr⟩
    | v => simp [optLoop] at h
    | h => simp [optLoop] at h
    | unknown => simp [optLoop] at h

theorem main_validate_run (opts : List Opt) (st : MState)
    (h : main_validate opts = .run st) :
    1 ≤ st.count ∧ st.count ≤ 1024 ∧
      (st.use_range = true → 1 ≤ st.range_lo ∧ st.range_lo ≤ st.range_hi ∧
        st.range_hi ≤ 65535 ∧ st.count ≤ st.range_hi - st.range_lo + 1) := by
  rcases ho : optLoop initState opts with c | st₀
  · simp [main_validate, ho] at h
  · have hv : validConfig st₀ :=
      optLoop_run_valid opts initState st₀ (by simp [validConfig, initState]) ho
    by_cases hc : st₀.use_range = true ∧ st₀.range_hi - st₀.range_lo + 1 < st₀.count
    · simp [main_validate, ho, hc] at h
    · have hst : st₀ = st := by simpa [main_validate, ho, hc] using h
      subst hst
      rcases hv with ⟨h1, h2, hr⟩
      refine ⟨h1, h2, fun hu => ?_⟩
      rcases hr hu with ⟨ha, hb', hcc⟩
      refine ⟨ha, hb', hcc, ?_⟩
      rcases not_and_or.1 hc with hc' | hc'
      · exact absurd hu hc'
      · omega

/-! ## Concrete oracles used as witnesses -/

/-- An OS oracle for which every call succeeds and socket `i` is
assigned port `i + 1`. -/
def osSeq : OS := ⟨fun _ => true, fun _ => true, fun _ => true, fun i => i + 1⟩

/-- A range oracle for which every call succeeds. -/
def rosFree : ROS := ⟨fun _ => true, fun _ => true⟩

/-- A range oracle whose very first `socket()` call fails. -/
def rosSocketFail : ROS := ⟨fun _ => false, fun _ => true⟩

/-- A range oracle for which every `socket()` succeeds and every
exact-port `bind()` fails. -/
def rosAllBusy : ROS := ⟨fun _ => true, fun _ => false⟩

/-- A range oracle whose second `socket()` call fails and whose binds
all fail. -/
def rosFailSecond : ROS := ⟨fun i => decide (i = 0), fun _ => false⟩

/-! ## The claims -/

/-- C1: for every `count` in `[1, MAX_PORTS]`, whenever the unconstrained
batch acquisition succeeds, the result has exactly `count` elements, all
pairwise distinct, each in `[1, 65535]` — under the hypotheses that the
kernel assigns only valid ports to port-0 binds and never assigns the
same port to two simultaneously open sockets of the batch. -/
theorem unconstrained_batch_correct (os : OS) (count : Nat)
    (h1 : 1 ≤ count) (h2 : count ≤ MAX_PORTS)
    (hvalid : ∀ i, i < count → 1 ≤ os.assigned i ∧ os.assigned i ≤ 65535)
    (hdistinct : ∀ i j, i < count → j < count → os.assigned i = os.assigned j → i = j)
    (ports : List Nat)
    (hres : (find_free_ports os count).2 = some ports) :
    ports.length = count ∧ ports.Nodup ∧ ∀ p ∈ ports, 1 ≤ p ∧ p ≤ 65535 := by
  obtain ⟨hports, -, -⟩ := find_free_ports_some os count ports hres
  subst hports
  refine ⟨by simp, ?_, ?_⟩
  · exact (List.nodup_range count).map_on fun i hi j hj hij =>
      hdistinct i j (List.mem_range.1 hi) (List.mem_range.1 hj) hij
  · intro p hp
    rcases List.mem_map.1 hp with ⟨i, hi, rfl⟩
    exact hvalid i (List.mem_range.1 hi)

/-- Witness for the C1 theorem: concrete oracle `osSeq`, `count = 2`,
result `[1, 2]`. -/
theorem unconstrained_batch_correct_witness : ([1, 2] : List Nat).Nodup :=
  (unconstrained_batch_correct osSeq 2 (by decide) (by decide)
    (fun i hi => ⟨Nat.succ_le_succ (Nat.zero_le i), by show i + 1 ≤ 65535; omega⟩)
    (fun i j _ _ hij => Nat.succ_injective hij)
    [1, 2] rfl).2.1

/-- C2: for every valid `(count, lo, hi)` with `hi - lo + 1 ≥ count`, for
every random start offset and every outcome of the individual probes,
when the range-constrained search succeeds every returned port lies in
`[lo, hi]` and the returned ports are pairwise distinct. -/
theorem range_search_in_bounds_and_distinct (ros : ROS) (count lo hi r : Nat)
    (h1 : 1 ≤ lo) (h2 : lo ≤ hi) (h3 : hi ≤ 65535) (h4 : count ≤ hi - lo + 1)
    (ports : List Nat)
    (hres : (find_free_ports_range ros count lo hi r).2 = some ports) :
    (∀ p ∈ ports, lo ≤ p ∧ p ≤ hi) ∧ ports.Nodup := by
  have hres' : (rangeLoop ros count lo (hi - lo + 1) (lo + r % (hi - lo + 1))
      (hi - lo + 1) 0 []).2 = some ports := hres
  have hs := rangeLoop_some_sound ros count lo (hi - lo + 1) (lo + r % (hi - lo + 1))
    (candidate_injOn lo (lo + r % (hi - lo + 1)) (hi - lo + 1))
    (hi - lo + 1) 0 [] (by omega) (by simp) (by simp) ports hres'
  refine ⟨?_, hs.1⟩
  intro p hp
  rcases hs.2 p hp with ⟨j, hj, rfl⟩
  exact candidate_mem lo hi (lo + r % (hi - lo + 1)) h2 j

/-- Witness for the C2 theorem: oracle `rosFree`, `count = 2`, range
`[5, 7]`, result `[5, 6]`. -/
theorem range_search_in_bounds_and_distinct_witness : ([5, 6] : List Nat).Nodup :=
  (range_search_in_bounds_and_distinct rosFree 2 5 7 0 (by decide) (by decide)
    (by decide) (by decide) [5, 6] rfl).2

/-- C3: partial results are never returned: a successful acquisition
(either routine) has exactly `count` ports, and `main` prints no port on
any path with a non-zero exit status. -/
theorem no_partial_results :
    (∀ os count ports,
      (find_free_ports os count).2 = some ports → ports.length = count) ∧
    (∀ ros count lo hi r ports,
      (find_free_ports_range ros count lo hi r).2 = some ports →
        ports.length = count) ∧
    (∀ os ros r opts,
      (fp_main os ros r opts).2.2 ≠ 0 → (fp_main os ros r opts).2.1 = []) := by
  refine ⟨?_, ?_, ?_⟩
  · intro os count ports h
    obtain ⟨hports, -, -⟩ := find_free_ports_some os count ports h
    simp [hports]
  · intro ros count lo hi r ports h
    exact rangeLoop_some_length ros count lo (hi - lo + 1) (lo + r % (hi - lo + 1))
      (hi - lo + 1) 0 [] ports h
  · intro os ros r opts hne
    rcases hv : main_validate opts with c | st
    · simp [fp_main, hv]
    · by_cases hu : st.use_range = true
      · rcases hr : find_free_ports_range ros st.count.toNat st.range_lo.toNat
            st.range_hi.toNat r with ⟨t, ro⟩
        cases ro with
        | some ps => exact absurd (by simp [fp_main, hv, hu, hr]) hne
        | none => simp [fp_main, hv, hu, hr]
      · rcases hr : find_free_ports os st.count.toNat with ⟨t, ro⟩
        cases ro with
        | some ps => exact absurd (by simp [fp_main, hv, hu, hr]) hne
        | none => simp [fp_main, hv, hu, hr]

/-- Witness for the C3 theorem: the range-path conjunct at `rosFree`,
`count = 2`, range `[5, 7]`. -/
theorem no_partial_results_witness : ([5, 6] : List Nat).length = 2 :=
  no_partial_results.2.1 rosFree 2 5 7 0 [5, 6] rfl

/-- C4: for every `lo ≤ hi` and start offset in `[lo, hi]`, the
candidate map `i ↦ lo + ((start - lo + i) % (hi - lo + 1))` of the scan
is a bijection from `{0, …, hi - lo}` onto `[lo, hi]` (injective,
surjective, into the interval), and the scan opens at most
`hi - lo + 1` probe sockets. -/
theorem candidate_scan_bijection (lo hi start : Nat)
    (h1 : lo ≤ hi) (h2 : lo ≤ start) (h3 : start ≤ hi) :
    (∀ i j, i < hi - lo + 1 → j < hi - lo + 1 →
      candidate lo start (hi - lo + 1) i = candidate lo start (hi - lo + 1) j →
        i = j) ∧
    (∀ p, lo ≤ p → p ≤ hi →
      ∃ i, i < hi - lo + 1 ∧ candidate lo start (hi - lo + 1) i = p) ∧
    (∀ i, lo ≤ candidate lo start (hi - lo + 1) i ∧
      candidate lo start (hi - lo + 1) i ≤ hi) ∧
    (∀ ros count r,
      (opensOf (find_free_ports_range ros count lo hi r).1).length ≤
        hi - lo + 1) := by
  refine ⟨candidate_injOn lo start (hi - lo + 1), candidate_surjOn lo hi start h1,
    fun i => candidate_mem lo hi start h1 i, ?_⟩
  intro ros count r
  obtain ⟨l, hl, hlen⟩ := rangeLoop_trace ros count lo (hi - lo + 1)
    (lo + r % (hi - lo + 1)) (hi - lo + 1) 0 []
  have ht : (find_free_ports_range ros count lo hi r).1 = pairEvs l := hl
  rw [ht, opensOf_pairEvs]
  exact hlen

/-- Witness for the C4 theorem: range `[8000, 8002]`, start `8001`,
membership of the candidate of scan index `2`. -/
theorem candidate_scan_bijection_witness :
    8000 ≤ candidate 8000 8001 (8002 - 8000 + 1) 2 ∧
      candidate 8000 8001 (8002 - 8000 + 1) 2 ≤ 8002 :=
  (candidate_scan_bijection 8000 8002 8001 (by decide) (by decide)
    (by decide)).2.2.1 2

/-- C5: both acquisition routines close every socket they open on every
exit path: the ordered list of opened descriptors equals the ordered
list of closed descriptors for every oracle, so the set of open
descriptors after the call equals the set before it. -/
theorem every_socket_closed :
    (∀ os count,
      opensOf (find_free_ports os count).1 = closesOf (find_free_ports os count).1) ∧
    (∀ ros count lo hi r,
      opensOf (find_free_ports_range ros count lo hi r).1 =
        closesOf (find_free_ports_range ros count lo hi r).1) := by
  constructor
  · intro os count
    rcases hb : bindLoop os count 0 with ⟨evs, res⟩
    rcases bindLoop_spec os count 0 with ⟨k, hk, hevs, hall, hfail⟩
    rw [hb] at hevs hall hfail
    have hevs' : evs = (List.range' 0 k).map Ev.sockOpen := hevs
    cases res with
    | failAt n =>
      have hn : n = 0 + k := hfail n rfl
      have ht : (find_free_ports os count).1 = evs ++ closeAll n := by
        simp [find_free_ports, hb]
      rw [ht, opensOf_append, closesOf_append, hevs', hn]
      simp [closeAll, opensOf_map_sockOpen, closesOf_map_sockOpen,
        opensOf_map_sockClose, closesOf_map_sockClose, List.range_eq_range']
    | allBound =>
      have hkc : k = count := hall rfl
      rcases hr : readLoop os count 0 with ⟨revs, ro⟩
      obtain ⟨k', hrevs⟩ := readLoop_evs os count 0
      rw [hr] at hrevs
      have hrevs' : revs = (List.range' 0 k').map Ev.sockRead := hrevs
      have ht : (find_free_ports os count).1 = evs ++ revs ++ closeAll count := by
        cases ro <;> simp [find_free_ports, hb, hr]
      rw [ht, opensOf_append, opensOf_append, closesOf_append, closesOf_append,
        hevs', hrevs', hkc]
      simp [closeAll, opensOf_map_sockOpen, opensOf_map_sockRead,
        closesOf_map_sockOpen, closesOf_map_sockRead, opensOf_map_sockClose,
        closesOf_map_sockClose, List.range_eq_range']
  · intro ros count lo hi r
    obtain ⟨l, hl, -⟩ := rangeLoop_trace ros count lo (hi - lo + 1)
      (lo + r % (hi - lo + 1)) (hi - lo + 1) 0 []
    have ht : (find_free_ports_range ros count lo hi r).1 = pairEvs l := hl
    rw [ht, opensOf_pairEvs, closesOf_pairEvs]

/-- C6: invalid configuration is rejected with a non-zero exit before
any socket is opened: an out-of-bounds `-n` count exits 1, a bad `-r`
range exits 1, a count exceeding the range size exits 1; any
configuration that reaches the acquisition code satisfies all bounds;
and on every early-exit path `main` opens no socket. -/
theorem invalid_config_rejected :
    (∀ st rest v, (v < 1 ∨ (MAX_PORTS : Int) < v) →
      optLoop st (Opt.n v :: rest) = .exit 1) ∧
    (∀ st rest lo hi, (lo < 1 ∨ (65535 : Int) < hi ∨ hi < lo) →
      optLoop st (Opt.r lo hi :: rest) = .exit 1) ∧
    (∀ opts st, optLoop initState opts = .run st → st.use_range = true →
      st.range_hi - st.range_lo + 1 < st.count → main_validate opts = .exit 1) ∧
    (∀ opts st, main_validate opts = .run st →
      1 ≤ st.count ∧ st.count ≤ 1024 ∧
        (st.use_range = true → 1 ≤ st.range_lo ∧ st.range_lo ≤ st.range_hi ∧
          st.range_hi ≤ 65535 ∧ st.count ≤ st.range_hi - st.range_lo + 1)) ∧
    (∀ opts c, main_validate opts = .exit c →
      ∀ os ros r, (fp_main os ros r opts).1 = [] ∧ (fp_main os ros r opts).2.2 = c) := by
  refine ⟨?_, ?_, ?_, main_validate_run, ?_⟩
  · intro st rest v hv
    simp [optLoop, hv]
  · intro st rest lo hi hv
    simp [optLoop, hv]
  · intro opts st ho hu hlt
    simp [main_validate, ho, hu, hlt]
  · intro opts c h os ros r
    simp [fp_main, h]

/-- Witness for the C6 theorem: `-n 0` is rejected with exit 1. -/
theorem invalid_config_rejected_witness :
    optLoop initState [Opt.n 0] = MainRes.exit 1 :=
  invalid_config_rejected.1 initState [] 0 (Or.inl (by decide))

/-- C7 counterexample: the claim that the core's failure signal
distinguishes "no free port found" from lower-level OS errors is false:
a run whose first `socket()` call fails (an OS error) and a run whose
scan exhausts the range (all binds fail) return the identical signal
`-1` with the identical (empty) result. -/
theorem range_failure_signal_counterexample :
    rosSocketFail.socketOk 0 = false ∧
    rosAllBusy.socketOk 0 = true ∧ rosAllBusy.bindOk 0 = false ∧
    find_free_ports_range_rc rosSocketFail 1 8000 8000 0 = -1 ∧
    find_free_ports_range_rc rosAllBusy 1 8000 8000 0 = -1 ∧
    (find_free_ports_range rosSocketFail 1 8000 8000 0).2 = none ∧
    (find_free_ports_range rosAllBusy 1 8000 8000 0).2 = none :=
  ⟨rfl, rfl, rfl, rfl, rfl, rfl, rfl⟩

/-- C7 amended: on failure the range-constrained core returns the single
failure signal `-1` for every failure cause — exhausted scan and
socket-creation failure return the same value and are not distinguished
by the returned signal. -/
theorem range_failure_signal_uniform (ros ros' : ROS)
    (count lo hi r count' lo' hi' r' : Nat)
    (h : (find_free_ports_range ros count lo hi r).2 = none)
    (h' : (find_free_ports_range ros' count' lo' hi' r').2 = none) :
    find_free_ports_range_rc ros count lo hi r = -1 ∧
    find_free_ports_range_rc ros' count' lo' hi' r' = -1 ∧
    find_free_ports_range_rc ros count lo hi r =
      find_free_ports_range_rc ros' count' lo' hi' r' := by
  simp [find_free_ports_range_rc, h, h']

/-- Witness for the C7 amended theorem at the two concrete failing
oracles. -/
theorem range_failure_signal_uniform_witness :
    find_free_ports_range_rc rosSocketFail 1 8000 8000 0 = -1 ∧
    find_free_ports_range_rc rosAllBusy 1 8000 8000 0 = -1 ∧
    find_free_ports_range_rc rosSocketFail 1 8000 8000 0 =
      find_free_ports_range_rc rosAllBusy 1 8000 8000 0 :=
  range_failure_signal_uniform rosSocketFail rosAllBusy 1 8000 8000 0 1 8000 8000 0
    rfl rfl

/-- C8: during the range-constrained scan at most one probe socket is
ever open at a time — each candidate's socket is closed (on bind success
and failure alike) before the next candidate is probed. -/
theorem range_scan_momentary_hold (ros : ROS) (count lo hi r : Nat) :
    nestedOk 0 (find_free_ports_range ros count lo hi r).1 = true := by
  obtain ⟨l, hl, -⟩ := rangeLoop_trace ros count lo (hi - lo + 1)
    (lo + r % (hi - lo + 1)) (hi - lo + 1) 0 []
  have ht : (find_free_ports_range ros count lo hi r).1 = pairEvs l := hl
  rw [ht]
  exact nestedOk_pairEvs l

/-- C9: on success of the unconstrained batch, assigned ports are read
only after all `count` sockets are opened and bound (the trace is all
opens, then all reads, then all closes, and every `socket()`/`bind()`
succeeded), and the i-th returned port is the assigned port of the i-th
socket created. -/
theorem batch_reads_after_binds_in_creation_order (os : OS) (count : Nat)
    (ports : List Nat) (hres : (find_free_ports os count).2 = some ports) :
    ports = (List.range count).map os.assigned ∧
    (find_free_ports os count).1 =
      (List.range count).map Ev.sockOpen ++ (List.range count).map Ev.sockRead ++
        closeAll count ∧
    ∀ j, j < count → os.socketOk j = true ∧ os.bindOk j = true ∧ os.gsOk j = true :=
  find_free_ports_some os count ports hres

/-- Witness for the C9 theorem at `osSeq`, `count = 1`. -/
theorem batch_reads_after_binds_in_creation_order_witness :
    ([1] : List Nat) = (List.range 1).map osSeq.assigned :=
  (batch_reads_after_binds_in_creation_order osSeq 1 [1] rfl).1

/-- C10: a `socket()` failure mid-scan aborts the whole range search
with failure (discarding any ports already found), whereas bind failures
alone never abort: with every `socket()` succeeding, the search succeeds
exactly when at least `count` of the range's probes bind successfully. -/
theorem range_socket_failure_fatal_bind_failure_not (ros : ROS) (count lo hi r : Nat) :
    (∀ m, m < hi - lo + 1 → (∀ j, j < m → ros.socketOk j = true) →
      ros.socketOk m = false → foundBy ros m < count →
      (find_free_ports_range ros count lo hi r).2 = none) ∧
    ((∀ j, ros.socketOk j = true) →
      ((find_free_ports_range ros count lo hi r).2 ≠ none ↔
        count ≤ foundBy ros (hi - lo + 1))) := by
  constructor
  · intro m hm hpre hfail hfound
    exact rangeLoop_abort ros count lo (hi - lo + 1) (lo + r % (hi - lo + 1))
      m (hi - lo + 1) 0 [] hm (fun j _ h2 => hpre j (by omega))
      (by simpa using hfail) (by simpa [foundBy_eq_foundBetween] using hfound)
  · intro hok
    have := rangeLoop_allOk ros count lo (hi - lo + 1) (lo + r % (hi - lo + 1)) hok
      (hi - lo + 1) 0 [] (by simp)
    simpa [find_free_ports_range, foundBy_eq_foundBetween] using this

/-- Witness for the C10 theorem: `rosFailSecond` fails its second
`socket()` call during a scan of `[10, 12]`, so the whole search fails. -/
theorem range_socket_failure_fatal_witness :
    (find_free_ports_range rosFailSecond 1 10 12 0).2 = none :=
  (range_socket_failure_fatal_bind_failure_not rosFailSecond 1 10 12 0).1 1
    (by decide)
    (fun j hj => by
      have hj0 : j = 0 := by omega
      subst hj0
      rfl)
    rfl (by decide)

end FP
